import Mathlib

/-!
Verification of the revng FunctionMetadata CFG checker and of the Pipeline
Core (contracts, flag gating, invalidation, loading, persistence) against
the repository's specification.

Part 1 contains all definitions (shallow embedding of the source), Part 2
all theorems.
-/

set_option maxHeartbeats 1000000

namespace efa

/-- MetaAddress: shallow embedding of revng's MetaAddress. Only validity and
identity of addresses matter to the verified code; `none` is
`MetaAddress::invalid()`. -/
abbrev MetaAddress := Option Nat

def MetaAddress.invalid : MetaAddress := none

def MetaAddress.isValid (a : MetaAddress) : Bool := a.isSome

def MetaAddress.isInvalid (a : MetaAddress) : Bool := !a.isSome

/-- The `efa::FunctionEdgeType::Values` enumeration from
FunctionMetadata.cpp / its header. -/
inductive FunctionEdgeType where
  | DirectBranch
  | FakeFunctionCall
  | FakeFunctionReturn
  | FunctionCall
  | IndirectCall
  | Return
  | BrokenReturn
  | IndirectTailCall
  | LongJmp
  | Killer
  | Unreachable
  | Invalid
  | Count
deriving DecidableEq

/-- The dynamic type of a `FunctionEdgeBase` is determined by its `Type`
field (the `classof` of `CallEdge` accepts exactly the call edge types):
edges are embedded as a single record, with the `CallEdge` payload
(`DynamicFunction`, `Attributes`) inline. The C++ field `Type` is renamed
`EdgeType` because `Type` is reserved in Lean. -/
structure Edge where
  EdgeType : FunctionEdgeType
  Destination : MetaAddress
  DynamicFunction : String
  Attributes : List Bool
deriving DecidableEq

/-- model::FunctionAttribute is only consulted for `NoReturn`; an edge's or
function's attribute set is embedded as the list of Booleans that are
`true` exactly when the attribute is `NoReturn`. -/
def hasNoReturnIn (attrs : List Bool) : Bool := attrs.contains true

/-- efa::BasicBlock: start address, end address and successor edges. The
C++ field `End` keeps its name. -/
structure BasicBlock where
  Start : MetaAddress
  End : MetaAddress
  Successors : List Edge
deriving DecidableEq

/-- model::FunctionType::Values. -/
inductive FunctionType where
  | Invalid
  | Regular
  | NoReturn
  | Fake
deriving DecidableEq

/-- model::Function, restricted to the fields FunctionMetadata.cpp reads:
its type and its attribute set. The C++ field `Type` is renamed `FType`. -/
structure Function where
  FType : FunctionType
  Attributes : List Bool
deriving DecidableEq

/-- model::Binary, restricted to the fields FunctionMetadata.cpp reads:
the function map (keyed by entry address) and the imported dynamic
function names. -/
structure Binary where
  Functions : List (MetaAddress × Function)
  ImportedDynamicFunctions : List String
deriving DecidableEq

/-- `Binary.Functions.find(a)` : lookup in the function map. -/
def Binary.lookupF (B : Binary) (a : MetaAddress) : Option Function :=
  (B.Functions.find? (fun pr => pr.1 == a)).map (fun pr => pr.2)

/-- efa::FunctionMetadata: entry address plus control flow graph. -/
structure FunctionMetadata where
  Entry : MetaAddress
  ControlFlowGraph : List BasicBlock
deriving DecidableEq

/-- efa::FunctionCFG. In the C++ a node exists per address in `Map`, and
edges are the `addSuccessor` links; the graph is embedded as the list of
node addresses (`Map`'s keys in insertion order) and the edge list. -/
structure FunctionCFG where
  Entry : MetaAddress
  Nodes : List MetaAddress
  Edges : List (MetaAddress × MetaAddress)
deriving DecidableEq

/-- Successors of a node: targets of the edges leaving it. -/
def FunctionCFG.succs (g : FunctionCFG) (a : MetaAddress) : List MetaAddress :=
  (g.Edges.filter (fun e => e.1 == a)).map (fun e => e.2)

/-- Well-formedness maintained by the C++ graph construction: node keys are
unique (`Map` is a map) and every edge endpoint is a node (`addSuccessor`
only links nodes returned by `get`). -/
def FunctionCFG.WF (g : FunctionCFG) : Prop :=
  g.Nodes.Nodup ∧ ∀ e ∈ g.Edges, e.1 ∈ g.Nodes ∧ e.2 ∈ g.Nodes

/-- Insert the elements of `xs` that are not yet present into `acc`. -/
def insertNew (acc xs : List MetaAddress) : List MetaAddress :=
  xs.foldl (fun a m => if m ∈ a then a else m :: a) acc

/-- One round of the reachability closure: add every successor of an
already-visited node. -/
def FunctionCFG.stepClose (g : FunctionCFG) (acc : List MetaAddress) : List MetaAddress :=
  insertNew acc (acc.flatMap g.succs)

/-- The closure after `n` rounds, started from the entry node. -/
def FunctionCFG.reachN (g : FunctionCFG) (n : Nat) : List MetaAddress :=
  Nat.iterate g.stepClose n [g.Entry]

/-- The visited set of `depth_first_ext(entryNode(), Visited)`: LLVM's
depth-first iterator visits exactly the nodes reachable from the start
node, embedded as the closure iterated `|Nodes|` times (enough rounds to
reach the fixpoint, proved below). -/
def FunctionCFG.visitedList (g : FunctionCFG) : List MetaAddress :=
  Nat.iterate g.stepClose g.Nodes.length [g.Entry]

/-- `FunctionCFG::allNodesAreReachable` from FunctionMetadata.cpp: empty
map means true, otherwise compare the size of the DFS visited set with the
number of nodes. -/
def FunctionCFG.allNodesAreReachable (g : FunctionCFG) : Bool :=
  if g.Nodes.length == 0 then true
  else g.visitedList.length == g.Nodes.length

/-- `FunctionCFG::entryNode` is `Map.at(Entry)`: it throws (none) when the
entry address has no node. -/
def FunctionCFG.entryNodeO (g : FunctionCFG) : Option MetaAddress :=
  if g.Entry ∈ g.Nodes then some g.Entry else none

/-- `allNodesAreReachable` including the possible `Map.at` throw: `none`
models the std::out_of_range exception escaping `entryNode()`. -/
def FunctionCFG.allNodesAreReachableO (g : FunctionCFG) : Option Bool :=
  if g.Nodes.length == 0 then some true
  else
    match g.entryNodeO with
    | none => none
    | some _ => some (g.visitedList.length == g.Nodes.length)

/-- `FunctionCFG::hasOnlyInvalidExits`: every valid address must have a
successor. -/
def FunctionCFG.hasOnlyInvalidExits (g : FunctionCFG) : Bool :=
  g.Nodes.all (fun a => !a.isValid || !(g.succs a).isEmpty)

/-- `FunctionCFG::get`: return the node for the address, creating it if
absent. The embedding returns the updated graph. -/
def FunctionCFG.getNode (g : FunctionCFG) (a : MetaAddress) : FunctionCFG :=
  if a ∈ g.Nodes then g else { g with Nodes := g.Nodes ++ [a] }

/-- `Source->addSuccessor(Graph.get(dst))`: ensure the destination node
exists, then link. -/
def FunctionCFG.addSuccessor (g : FunctionCFG) (src dst : MetaAddress) : FunctionCFG :=
  let g1 := g.getNode dst
  { g1 with Edges := g1.Edges ++ [(src, dst)] }

/-- Modelled from the spec: `hasAttribute(Binary, CallEdge, NoReturn)` is
declared outside the provided sources; per the model design it holds when
the call edge carries the attribute or the callee function in the Binary
does. Only its Boolean result feeds `getGraph`. -/
def hasNoReturnAttribute (B : Binary) (e : Edge) : Bool :=
  hasNoReturnIn e.Attributes ||
    (match B.lookupF e.Destination with
     | some F => hasNoReturnIn F.Attributes
     | none => false)

/-- An edge type on which `getGraph` does not `revng_abort`. -/
def edgeTypeOK (e : Edge) : Bool :=
  !(e.EdgeType == FunctionEdgeType.Invalid) && !(e.EdgeType == FunctionEdgeType.Count)

/-- The switch in `getGraph`'s inner loop, for one edge of a block. -/
def processEdge (B : Binary) (blockStart blockEnd : MetaAddress)
    (g : FunctionCFG) (e : Edge) : FunctionCFG :=
  match e.EdgeType with
  | .DirectBranch | .FakeFunctionCall | .FakeFunctionReturn | .Return
  | .BrokenReturn | .IndirectTailCall | .LongJmp | .Unreachable =>
      g.addSuccessor blockStart e.Destination
  | .FunctionCall | .IndirectCall =>
      if hasNoReturnAttribute B e then g.addSuccessor blockStart MetaAddress.invalid
      else g.addSuccessor blockStart blockEnd
  | .Killer => g.addSuccessor blockStart MetaAddress.invalid
  | .Invalid | .Count => g

/-- One iteration of `getGraph`'s outer loop: materialize the block's start
node, then process its successor edges in order. -/
def processBlock (B : Binary) (g : FunctionCFG) (blk : BasicBlock) : FunctionCFG :=
  blk.Successors.foldl (processEdge B blk.Start blk.End) (g.getNode blk.Start)

/-- `getGraph` without the abort cases. -/
def getGraphCore (B : Binary) (CFG : List BasicBlock) (Entry : MetaAddress) : FunctionCFG :=
  CFG.foldl (processBlock B) ⟨Entry, [], []⟩

/-- `getGraph`, `none` modelling the `revng_abort()` on an `Invalid` or
`Count` edge type. -/
def getGraphO (B : Binary) (CFG : List BasicBlock) (Entry : MetaAddress) : Option FunctionCFG :=
  if CFG.all (fun blk => blk.Successors.all edgeTypeOK) then
    some (getGraphCore B CFG Entry)
  else none

/-- The call edge types, i.e. the `classof` of `efa::CallEdge`. -/
def isCallEdgeType (t : FunctionEdgeType) : Bool :=
  t == FunctionEdgeType.FunctionCall || t == FunctionEdgeType.IndirectCall

/-- `verifyFunctionEdge` from FunctionMetadata.cpp: the per-type
destination validity switch. -/
def verifyFunctionEdge (e : Edge) : Bool :=
  match e.EdgeType with
  | .Invalid | .Count => false
  | .DirectBranch | .FakeFunctionCall | .FakeFunctionReturn =>
      !e.Destination.isInvalid
  | .FunctionCall => e.Destination.isValid == e.DynamicFunction.isEmpty
  | .IndirectCall | .Return | .BrokenReturn | .IndirectTailCall
  | .LongJmp | .Killer | .Unreachable => !e.Destination.isValid

/-- `CallEdge::verify(VH)`: the explicit direct-call checks followed by
`verifyFunctionEdge`. -/
def CallEdge.verify (e : Edge) : Bool :=
  if e.EdgeType == FunctionEdgeType.FunctionCall then
    let IsDynamic := !e.DynamicFunction.isEmpty
    let HasDestination := e.Destination.isValid
    if !HasDestination && !IsDynamic then false
    else if HasDestination && IsDynamic then false
    else verifyFunctionEdge e
  else verifyFunctionEdge e

/-- `FunctionEdgeBase::verify(VH)`: dispatch on the dynamic type, which is
determined by the edge type. -/
def Edge.verify (e : Edge) : Bool :=
  if isCallEdgeType e.EdgeType then CallEdge.verify e else verifyFunctionEdge e

/-- Number of CFG blocks starting at the entry: the `HasEntry` /
duplicate-entry logic of `FunctionMetadata::verify` passes exactly when
this is one. -/
def entryCount (Entry : MetaAddress) (CFG : List BasicBlock) : Nat :=
  (CFG.filter (fun b => b.Start == Entry)).length

/-- The final function call checks of `FunctionMetadata::verify`. -/
def checkCalls (B : Binary) (CFG : List BasicBlock) : Bool :=
  CFG.all (fun blk => blk.Successors.all (fun e =>
    if e.EdgeType == FunctionEdgeType.FunctionCall then
      if !e.DynamicFunction.isEmpty then
        e.Destination.isInvalid && B.ImportedDynamicFunctions.contains e.DynamicFunction
      else (B.lookupF e.Destination).isSome
    else true))

/-- `FunctionMetadata::verify(Binary, VH)`. `none` models the exceptions
and aborts the C++ can hit: `Functions.at(Entry)` missing, `revng_abort`
inside `getGraph`, and `Map.at(Entry)` inside `entryNode`. -/
def FunctionMetadata.verify (M : FunctionMetadata) (B : Binary) : Option Bool :=
  match B.lookupF M.Entry with
  | none => none
  | some F =>
    if F.FType == FunctionType.Fake || F.FType == FunctionType.Invalid then
      some (M.ControlFlowGraph.isEmpty)
    else
      match getGraphO B M.ControlFlowGraph M.Entry with
      | none => none
      | some G =>
        match G.allNodesAreReachableO with
        | none => none
        | some r =>
          if !r then some false
          else if !G.hasOnlyInvalidExits then some false
          else if M.ControlFlowGraph.length > 0 &&
              !(entryCount M.Entry M.ControlFlowGraph == 1 &&
                M.ControlFlowGraph.all (fun blk => blk.Successors.all Edge.verify)) then
            some false
          else some (checkCalls B M.ControlFlowGraph)

/-- Declarative reachability over the embedded graph: the entry reaches
itself, and reachability follows forward edges. -/
inductive FunctionCFG.Reaches (g : FunctionCFG) : MetaAddress → Prop where
  | refl : FunctionCFG.Reaches g g.Entry
  | tail {a b : MetaAddress} : FunctionCFG.Reaches g a → b ∈ g.succs a →
      FunctionCFG.Reaches g b

/-- C8 failing input, Binary side: one Regular function at address 1. -/
def binC8 : Binary := ⟨[(some 1, ⟨FunctionType.Regular, []⟩)], []⟩

/-- C8 failing input, metadata side: entry 1, but the only basic block
starts at address 2 and has no successors. -/
def mdC8 : FunctionMetadata := ⟨some 1, [⟨some 2, some 3, []⟩]⟩

/-- C10 witness input, Binary side: a Fake function at address 1. -/
def binC10 : Binary := ⟨[(some 1, ⟨FunctionType.Fake, []⟩)], []⟩

/-- C10 witness input, metadata side: a non-empty CFG whose only edge has
the Invalid type, so graph construction would abort if attempted. -/
def mdC10 : FunctionMetadata :=
  ⟨some 1, [⟨some 1, some 2, [⟨FunctionEdgeType.Invalid, none, "", []⟩]⟩]⟩

/-- C9 witness input: a direct call with a valid destination and no
dynamic symbol. -/
def edgeC9 : Edge := ⟨FunctionEdgeType.FunctionCall, some 5, "", []⟩

/-- C7 witness input: a two-node graph with an edge from the entry to the
other node. -/
def graphC7 : FunctionCFG := ⟨some 1, [some 1, some 2], [(some 1, some 2)]⟩

end efa

/-!
The Pipeline Core (Target, Kind, Contract, Pipe, Runner, Invalidator,
Loader, persistence). Its sources (Contract.cpp, Runner.cpp, Loader.cpp,
...) are listed by the build file but are not part of the provided subset,
so per the ground rules this whole namespace is *modelled from the spec*
(sections 3, 4, 6, 7 of spec.md). Steps are flattened to the ordered list
of their Pipes — the spec runs Pipes strictly in declared order across
Steps, and every Pipe boundary is an observable Container snapshot.
Targets carry their container name (`LTarget`), so a ContainerSet is a
single set of located targets.
-/

namespace pipeline

/-- Modelled from the spec (§4.1): a Kind registers under a unique string
name, optionally with a parent Kind; Kinds form a tree. -/
structure KindDecl where
  name : String
  parentName : Option String
deriving DecidableEq

abbrev KindReg := List KindDecl

def parentOf (reg : KindReg) (k : String) : Option String :=
  match reg.find? (fun d => d.name == k) with
  | some d => d.parentName
  | none => none

/-- The chain of ancestors of a kind, cut off by fuel (the registry length
bounds every parent chain in a well-formed tree). -/
def ancestorChain (reg : KindReg) : Nat → String → List String
  | 0, k => [k]
  | n + 1, k =>
    k :: (match parentOf reg k with
          | some p => ancestorChain reg n p
          | none => [])

/-- Modelled from the spec (§4.1): Kind A matches Kind B iff A == B or A
is a descendant of B. -/
def kindMatches (reg : KindReg) (a b : String) : Bool :=
  (ancestorChain reg reg.length a).contains b

/-- Modelled from the spec (§3): a Target is a path of named components
plus a Kind; the spec's Containers hold Targets, and scheduling addresses
them as (container, target), so the container name is carried inline
(a "located target"). -/
structure LTarget where
  container : String
  kind : String
  path : List String
deriving DecidableEq

/-- Modelled from the spec (§4.1): a concrete path matches a pattern path
iff lengths agree and every non-wildcard component is equal. -/
def patMatches : List String → List String → Bool
  | [], [] => true
  | a :: pat, b :: path => (a == "*" || a == b) && patMatches pat path
  | _, _ => false

/-- A possibly-wildcarded target `u` covers a concrete target `t`. -/
def covers (reg : KindReg) (u t : LTarget) : Bool :=
  u.container == t.container && kindMatches reg t.kind u.kind && patMatches u.path t.path

/-- Set-level coverage: some member of `S` covers `t`. This is the
reading of `⊇` in the spec's round-trip property, since preconditions may
contain wildcarded inverse images (§4.3). -/
def coveredBy (reg : KindReg) (S : List LTarget) (t : LTarget) : Bool :=
  S.any (fun u => covers reg u t)

/-- Modelled from the spec (§4.3): the three path functions of a Contract
rule's output description. -/
inductive PathFn where
  | identity
  | constPath (path : List String)
  | project (idxs : List Nat)
deriving DecidableEq

/-- Modelled from the spec (§4.3): one Contract rewrite rule — input
pattern, output description, preservation flag. -/
structure Rule where
  inContainer : String
  inKind : String
  inPath : List String
  outContainer : String
  outKind : String
  fn : PathFn
  preserving : Bool
deriving DecidableEq

/-- The rule's input pattern matches a concrete target. -/
def matchesIn (reg : KindReg) (r : Rule) (t : LTarget) : Bool :=
  t.container == r.inContainer && kindMatches reg t.kind r.inKind &&
    patMatches r.inPath t.path

/-- Forward path rewriting (§4.3): identity, constant, or component
projection. -/
def applyFn (fn : PathFn) (path : List String) : List String :=
  match fn with
  | .identity => path
  | .constPath p => p
  | .project idxs => idxs.map (fun i => path.getD i "*")

/-- The output target a rule produces from a matched input. -/
def image (r : Rule) (t : LTarget) : LTarget :=
  ⟨r.outContainer, r.outKind, applyFn r.fn t.path⟩

/-- A requested output matches the rule's output description (container,
Kind, and an arity/shape compatible with the path function). -/
def outMatches (reg : KindReg) (r : Rule) (o : LTarget) : Bool :=
  o.container == r.outContainer && kindMatches reg o.kind r.outKind &&
    (match r.fn with
     | .identity => o.path.length == r.inPath.length
     | .constPath p => o.path == p
     | .project idxs => o.path.length == idxs.length)

/-- Write the output components back into their input positions. -/
def overwriteAt (base : List String) (idxs : List Nat) (vals : List String) :
    List String :=
  (List.zip idxs vals).foldl (fun b pr => b.set pr.1 pr.2) base

/-- Backward path rewriting (§4.3): the wildcarded inverse image of a
requested output under one rule. -/
def invImage (r : Rule) (o : LTarget) : LTarget :=
  ⟨r.inContainer, r.inKind,
    match r.fn with
    | .identity => o.path
    | .constPath _ => r.inPath
    | .project idxs => overwriteAt r.inPath idxs o.path⟩

def matchedAny (reg : KindReg) (rules : List Rule) (t : LTarget) : Bool :=
  rules.any (fun r => matchesIn reg r t)

/-- A target stays in its container across the Pipe (§4.3's preservation
flag): true when every rule matching it preserves its inputs — in
particular when no rule matches it at all (pass-through). -/
def keptIn (reg : KindReg) (rules : List Rule) (t : LTarget) : Bool :=
  (rules.filter (fun r => matchesIn reg r t)).all (fun r => r.preserving)

/-- The targets the rules produce from a set (union over rules, §4.3). -/
def ruleOutputs (reg : KindReg) (rules : List Rule) (S : List LTarget) :
    List LTarget :=
  S.flatMap (fun t =>
    (rules.filter (fun r => matchesIn reg r t)).map (fun r => image r t))

/-- Modelled from the spec (§4.3, §4.4): forward application. After the
Pipe runs, the Containers hold the kept inputs plus every rule output. -/
def deducePostcondition (reg : KindReg) (rules : List Rule) (S : List LTarget) :
    List LTarget :=
  S.filter (keptIn reg rules) ++ ruleOutputs reg rules S

/-- Modelled from the spec (§4.3): backward application. A requested
output matched by some rules needs their (wildcarded) inverse images;
one matched by no rule can only pass through and is needed as-is.
Multiple rules combine by union. -/
def deducePrecondition (reg : KindReg) (rules : List Rule) (O : List LTarget) :
    List LTarget :=
  O.flatMap (fun o =>
    let ms := rules.filter (fun r => outMatches reg r o)
    if ms.isEmpty then [o] else ms.map (fun r => invImage r o))

/-- Modelled from the spec (§4.4, §4.6): a Pipe is its Contract rules, the
Globals it reads, and its `EnabledWhen` flags. -/
structure Pipe where
  name : String
  rules : List Rule
  readsGlobals : List String
  enabledWhen : List String
deriving DecidableEq

/-- A Pipe runs only if all its `EnabledWhen` flags are in the runtime's
active flag set (§6). -/
def enabled (flags : List String) (p : Pipe) : Bool :=
  p.enabledWhen.all (fun f => flags.contains f)

/-- The Contract the planner sees: a gated-out Pipe has an empty
Contract (§4.4). -/
def effectiveRules (flags : List String) (p : Pipe) : List Rule :=
  if enabled flags p then p.rules else []

/-- Modelled from the spec (§4.4 Step execution): run the Pipes in
declared order, skipping gated-out ones; the second component is the
trace of Pipes whose execute was invoked. -/
def runPipes (reg : KindReg) (flags : List String) (ps : List Pipe)
    (S : List LTarget) : List LTarget × List String :=
  ps.foldl
    (fun acc p =>
      if enabled flags p then
        (deducePostcondition reg p.rules acc.1, acc.2 ++ [p.name])
      else acc)
    (S, [])

/-- Container contents after running a pipe list (all Pipes enabled; the
invalidation claims do not involve flags). -/
def execState (reg : KindReg) (ps : List Pipe) (S0 : List LTarget) : List LTarget :=
  ps.foldl (fun S p => deducePostcondition reg p.rules S) S0

/-- Modelled from the spec (§4.6): one Invalidator step over one Pipe.
The state replays the run; the stale set grows by (a) the seed — every
output of a Pipe reading the mutated Global — and (b) the forward
closure — `deducePostcondition(staleInputs)` where `staleInputs` is the
portion of the Pipe's reads intersecting the known-stale set. -/
def stepInval (reg : KindReg) (g : String) (acc : List LTarget × List LTarget)
    (p : Pipe) : List LTarget × List LTarget :=
  let produced := ruleOutputs reg p.rules (acc.1.filter (fun t => acc.2.contains t))
  let seeds := if p.readsGlobals.contains g then ruleOutputs reg p.rules acc.1 else []
  (deducePostcondition reg p.rules acc.1, acc.2 ++ seeds ++ produced)

/-- `Invalidator.run` for the mutation of Global `g`: the final state and
the accumulated stale set. -/
def invalRun (reg : KindReg) (g : String) (ps : List Pipe) (S0 : List LTarget) :
    List LTarget × List LTarget :=
  ps.foldl (stepInval reg g) (S0, [])

/-- Container contents after the Invalidator applied the stale set (§4.6
Application): the stale targets are removed. -/
def cleaned (reg : KindReg) (g : String) (ps : List Pipe) (S0 : List LTarget) :
    List LTarget :=
  (invalRun reg g ps S0).1.filter (fun t => !(invalRun reg g ps S0).2.contains t)

/-- A target's transitive derivation read Global `g` during the run of
`ps` from `S0`. Seeds are the outputs of Pipes reading `g`; taint follows
rule images of present tainted targets; and — since artifact identity is
by target name (§1) — once a name is tainted it stays tainted for the
rest of the run. -/
inductive Chain (reg : KindReg) (g : String) (S0 : List LTarget) :
    List Pipe → LTarget → Prop where
  | seed (ps : List Pipe) (p : Pipe) (t : LTarget) :
      g ∈ p.readsGlobals → t ∈ ruleOutputs reg p.rules (execState reg ps S0) →
      Chain reg g S0 (ps ++ [p]) t
  | image (ps : List Pipe) (p : Pipe) (t o : LTarget) :
      Chain reg g S0 ps t → t ∈ execState reg ps S0 →
      o ∈ ruleOutputs reg p.rules [t] → Chain reg g S0 (ps ++ [p]) o
  | persist (ps : List Pipe) (p : Pipe) (t : LTarget) :
      Chain reg g S0 ps t → Chain reg g S0 (ps ++ [p]) t

/-- Modelled from the spec (§7): the load-time error kinds the claims
need. -/
inductive LoadError where
  | UnknownPipe
deriving DecidableEq

/-- Modelled from the spec (§6): one Pipe entry of a pipeline
description. -/
structure PipeDecl where
  typeName : String
  usedContainers : List String
  passes : List String
  enabledWhen : List String
deriving DecidableEq

/-- Modelled from the spec (§6): one Step of a pipeline description. -/
structure StepDecl where
  name : String
  pipes : List PipeDecl
deriving DecidableEq

/-- The registries the Loader resolves names against (§6 `-l`, §7). -/
structure Registry where
  pipeNames : List String
  passNames : List String
deriving DecidableEq

/-- A Pipe declaration resolves: its Type is a registered Pipe and every
inner pass name is registered. -/
def pipeDeclOK (R : Registry) (d : PipeDecl) : Bool :=
  R.pipeNames.contains d.typeName &&
    d.passes.all (fun nm => R.passNames.contains nm)

/-- Modelled from the spec (§7): name resolution happens during pipeline
loading; an unresolved Pipe type or inner pass fails the load with
`UnknownPipe`. -/
def loadPipeline (R : Registry) (steps : List StepDecl) :
    Except LoadError (List StepDecl) :=
  if steps.all (fun s => s.pipes.all (pipeDeclOK R)) then Except.ok steps
  else Except.error LoadError.UnknownPipe

/-- The trace of Pipes a loaded pipeline would execute. -/
def runDecls (steps : List StepDecl) : List String :=
  steps.flatMap (fun s => s.pipes.map (fun d => d.typeName))

/-- Load, then — only on success — execute: the CLI contract (§6). -/
def loadAndRun (R : Registry) (steps : List StepDecl) :
    Except LoadError (List String) :=
  match loadPipeline R steps with
  | Except.error e => Except.error e
  | Except.ok st => Except.ok (runDecls st)

/-- C2 inputs: two unrelated kinds and one identity rule from K1 to K2. -/
def regC2 : KindReg := [⟨"K1", none⟩, ⟨"K2", none⟩]

def ruleC2 : Rule := ⟨"C", "K1", ["*"], "C", "K2", PathFn.identity, false⟩

/-- C2 counterexample target: matches no input pattern (its kind is K2)
but matches the rule's output description. -/
def tC2 : LTarget := ⟨"C", "K2", ["x"]⟩

/-- C2 witness input: a target matching the rule's input pattern. -/
def inC2 : List LTarget := [⟨"C", "K1", ["x"]⟩]

/-- C3 witness inputs: one gated Pipe that is enabled by the active flags
and one that is not. -/
def pipeC3on : Pipe := ⟨"CopyPipe", [ruleC2], [], ["DoCopy"]⟩

def pipeC3off : Pipe := ⟨"DisabledPipe", [ruleC2], [], ["DoOther"]⟩

def flagsC3 : List String := ["DoCopy"]

/-- C1/C4 witness inputs: one Pipe reading the model Global, copying
`in:K:x` to `out:K:x` (preserving); `keep:K2:y` passes through. -/
def regP : KindReg := [⟨"K", none⟩, ⟨"K2", none⟩]

def ruleP : Rule := ⟨"in", "K", ["*"], "out", "K", PathFn.identity, true⟩

def pipeP : Pipe := ⟨"P", [ruleP], ["model.yml"], []⟩

def s0P : List LTarget := [⟨"in", "K", ["x"]⟩, ⟨"keep", "K2", ["y"]⟩]

def taintedP : LTarget := ⟨"out", "K", ["x"]⟩

def keepP : LTarget := ⟨"keep", "K2", ["y"]⟩

/-- C6 witness inputs: a registered LLVM pipe naming an unregistered
inner pass. -/
def regC6 : Registry := ⟨["PureLLVMPipe", "CopyPipe"], ["globaldce"]⟩

def declC6 : List StepDecl :=
  [⟨"FirstStep", [⟨"PureLLVMPipe", ["module.ll"], ["nonexistent-pass"], []⟩]⟩]

end pipeline

/-!
Persistence (spec §6, "Persisted state"). The serialized format is opaque
to the core and owned by each Container/Global type; it is modelled as a
flat token stream that the serializer must flatten structure into and the
deserializer must re-parse.
-/

namespace persistence

inductive Token where
  | natTok (n : Nat)
  | strTok (s : String)
deriving DecidableEq

/-- Serializer of one located target. -/
def serializeTarget (t : pipeline.LTarget) : List Token :=
  Token.strTok t.container :: Token.strTok t.kind :: Token.natTok t.path.length ::
    t.path.map Token.strTok

def parseStrs : Nat → List Token → Option (List String × List Token)
  | 0, ts => some ([], ts)
  | n + 1, Token.strTok s :: ts =>
    match parseStrs n ts with
    | some (ss, rest) => some (s :: ss, rest)
    | none => none
  | _ + 1, _ => none

def parseTarget : List Token → Option (pipeline.LTarget × List Token)
  | Token.strTok c :: Token.strTok k :: Token.natTok n :: ts =>
    match parseStrs n ts with
    | some (ss, rest) => some (⟨c, k, ss⟩, rest)
    | none => none
  | _ => none

/-- Container serializer: a Container persists its current TargetSet. -/
def serializeTargets (S : List pipeline.LTarget) : List Token :=
  Token.natTok S.length :: S.flatMap serializeTarget

def parseTargetsN : Nat → List Token → Option (List pipeline.LTarget × List Token)
  | 0, ts => some ([], ts)
  | n + 1, ts =>
    match parseTarget ts with
    | some (t, rest) =>
      match parseTargetsN n rest with
      | some (tl, rest2) => some (t :: tl, rest2)
      | none => none
    | none => none

/-- Container deserializer. -/
def deserializeTargets (ts : List Token) : Option (List pipeline.LTarget) :=
  match ts with
  | Token.natTok n :: rest =>
    match parseTargetsN n rest with
    | some (S, []) => some S
    | _ => none
  | _ => none

def encodeMA : efa.MetaAddress → List Token
  | none => [Token.natTok 0]
  | some a => [Token.natTok 1, Token.natTok a]

def decodeMA : List Token → Option (efa.MetaAddress × List Token)
  | Token.natTok 0 :: ts => some (none, ts)
  | Token.natTok 1 :: Token.natTok a :: ts => some (some a, ts)
  | _ => none

def encodeFT : efa.FunctionType → Nat
  | .Invalid => 0
  | .Regular => 1
  | .NoReturn => 2
  | .Fake => 3

def decodeFT : Nat → Option efa.FunctionType
  | 0 => some .Invalid
  | 1 => some .Regular
  | 2 => some .NoReturn
  | 3 => some .Fake
  | _ => none

def encodeBool (b : Bool) : Token := Token.natTok (if b then 1 else 0)

def parseBools : Nat → List Token → Option (List Bool × List Token)
  | 0, ts => some ([], ts)
  | n + 1, Token.natTok 0 :: ts =>
    match parseBools n ts with
    | some (bs, rest) => some (false :: bs, rest)
    | none => none
  | n + 1, Token.natTok 1 :: ts =>
    match parseBools n ts with
    | some (bs, rest) => some (true :: bs, rest)
    | none => none
  | _ + 1, _ => none

def encodeFunction (f : efa.Function) : List Token :=
  Token.natTok (encodeFT f.FType) :: Token.natTok f.Attributes.length ::
    f.Attributes.map encodeBool

def parseFunction : List Token → Option (efa.Function × List Token)
  | Token.natTok ft :: Token.natTok n :: ts =>
    match decodeFT ft with
    | some t =>
      match parseBools n ts with
      | some (attrs, rest) => some (⟨t, attrs⟩, rest)
      | none => none
    | none => none
  | _ => none

def encodeEntry (e : efa.MetaAddress × efa.Function) : List Token :=
  encodeMA e.1 ++ encodeFunction e.2

def parseEntry (ts : List Token) : Option ((efa.MetaAddress × efa.Function) × List Token) :=
  match decodeMA ts with
  | some (a, rest) =>
    match parseFunction rest with
    | some (f, rest2) => some ((a, f), rest2)
    | none => none
  | none => none

def parseEntriesN : Nat → List Token →
    Option (List (efa.MetaAddress × efa.Function) × List Token)
  | 0, ts => some ([], ts)
  | n + 1, ts =>
    match parseEntry ts with
    | some (e, rest) =>
      match parseEntriesN n rest with
      | some (es, rest2) => some (e :: es, rest2)
      | none => none
    | none => none

/-- The model Global's serializer (spec §6: Globals are persisted as
sibling files, e.g. `model.yml`, in a type-owned format). -/
def serializeBinary (B : efa.Binary) : List Token :=
  Token.natTok B.Functions.length :: B.Functions.flatMap encodeEntry ++
    Token.natTok B.ImportedDynamicFunctions.length ::
      B.ImportedDynamicFunctions.map Token.strTok

/-- The model Global's deserializer. -/
def deserializeBinary (ts : List Token) : Option efa.Binary :=
  match ts with
  | Token.natTok n :: rest =>
    match parseEntriesN n rest with
    | some (fs, Token.natTok m :: rest2) =>
      match parseStrs m rest2 with
      | some (ss, []) => some ⟨fs, ss⟩
      | _ => none
    | _ => none
  | _ => none

end persistence

/-! # Part 2: theorems -/

namespace efa

/-- C9: for every CallEdge whose Type is FunctionCall, verify succeeds iff
exactly one of the following holds: the Destination address is valid
(regular direct call), or the DynamicFunction name is non-empty (dynamic
call); it fails when both hold or neither holds. -/
theorem CallEdge.verify_functionCall_iff (e : Edge)
    (h : e.EdgeType = FunctionEdgeType.FunctionCall) :
    CallEdge.verify e = true ↔
      ((e.Destination.isValid = true ∧ e.DynamicFunction = "") ∨
       (e.Destination.isValid = false ∧ e.DynamicFunction ≠ "")) := by
  have hs := String.isEmpty_iff e.DynamicFunction
  unfold CallEdge.verify verifyFunctionEdge
  cases hv : e.Destination.isValid <;> cases hd : e.DynamicFunction.isEmpty <;>
    simp_all [h]

/-- C9 witness: a direct call with valid destination and empty dynamic
name verifies. -/
theorem CallEdge.verify_functionCall_iff_witness :
    CallEdge.verify edgeC9 = true ↔
      ((edgeC9.Destination.isValid = true ∧ edgeC9.DynamicFunction = "") ∨
       (edgeC9.Destination.isValid = false ∧ edgeC9.DynamicFunction ≠ "")) :=
  CallEdge.verify_functionCall_iff edgeC9 rfl

/-- C10: when the Binary's function at the metadata's Entry is Fake or
Invalid, `FunctionMetadata::verify` returns (without exceptions) exactly
the check that the ControlFlowGraph is empty. The statement holds for
every metadata, including ones whose edges would abort graph construction
or fail the edge checks, which shows no graph construction or edge check
is performed on this path. -/
theorem FunctionMetadata.verify_fake_or_invalid (B : Binary) (M : FunctionMetadata)
    (F : Function) (hF : B.lookupF M.Entry = some F)
    (hT : F.FType = FunctionType.Fake ∨ F.FType = FunctionType.Invalid) :
    M.verify B = some M.ControlFlowGraph.isEmpty := by
  unfold FunctionMetadata.verify
  rw [hF]
  rcases hT with h | h <;> simp [h]

/-- C10 witness: a Fake function with a non-empty CFG (containing an edge
that would abort `getGraph`) verifies to false, with no exception. -/
theorem FunctionMetadata.verify_fake_or_invalid_witness :
    binC10.lookupF mdC10.Entry = some ⟨FunctionType.Fake, []⟩ ∧
    mdC10.verify binC10 = some false := by
  refine ⟨by decide, ?_⟩
  simpa using
    FunctionMetadata.verify_fake_or_invalid binC10 mdC10 ⟨FunctionType.Fake, []⟩
      (by decide) (Or.inl rfl)

theorem insertNew_cons (acc : List MetaAddress) (m : MetaAddress)
    (xs : List MetaAddress) :
    insertNew acc (m :: xs) = insertNew (if m ∈ acc then acc else m :: acc) xs := rfl

theorem mem_insertNew {x : MetaAddress} :
    ∀ {xs acc : List MetaAddress}, x ∈ insertNew acc xs ↔ x ∈ acc ∨ x ∈ xs := by
  intro xs
  induction xs with
  | nil => intro acc; simp [insertNew]
  | cons m xs ih =>
    intro acc
    rw [insertNew_cons, ih]
    by_cases hm : m ∈ acc <;> simp only [hm, if_true, if_false, List.mem_cons] <;>
      constructor
    · rintro (h | h)
      · exact Or.inl h
      · exact Or.inr (Or.inr h)
    · rintro (h | rfl | h)
      · exact Or.inl h
      · exact Or.inl hm
      · exact Or.inr h
    · rintro ((rfl | h) | h)
      · exact Or.inr (Or.inl rfl)
      · exact Or.inl h
      · exact Or.inr (Or.inr h)
    · rintro (h | rfl | h)
      · exact Or.inl (Or.inr h)
      · exact Or.inl (Or.inl rfl)
      · exact Or.inr h

theorem nodup_insertNew :
    ∀ (xs acc : List MetaAddress), acc.Nodup → (insertNew acc xs).Nodup := by
  intro xs
  induction xs with
  | nil => intro acc h; exact h
  | cons m xs ih =>
    intro acc h
    rw [insertNew_cons]
    by_cases hm : m ∈ acc
    · rw [if_pos hm]; exact ih acc h
    · rw [if_neg hm]; exact ih _ (List.nodup_cons.mpr ⟨hm, h⟩)

theorem FunctionCFG.mem_stepClose {g : FunctionCFG} {acc : List MetaAddress}
    {x : MetaAddress} :
    x ∈ g.stepClose acc ↔ x ∈ acc ∨ ∃ y ∈ acc, x ∈ g.succs y := by
  unfold FunctionCFG.stepClose
  rw [mem_insertNew, List.mem_flatMap]

theorem FunctionCFG.reachN_succ (g : FunctionCFG) (n : Nat) :
    g.reachN (n + 1) = g.stepClose (g.reachN n) :=
  Function.iterate_succ_apply' _ _ _

theorem FunctionCFG.nodup_reachN (g : FunctionCFG) : ∀ n, (g.reachN n).Nodup := by
  intro n
  induction n with
  | zero => simp [FunctionCFG.reachN]
  | succ n ih =>
    rw [g.reachN_succ n]
    exact nodup_insertNew _ _ ih

theorem FunctionCFG.subset_stepClose (g : FunctionCFG) (acc : List MetaAddress) :
    acc ⊆ g.stepClose acc := fun _ hx => FunctionCFG.mem_stepClose.mpr (Or.inl hx)

theorem FunctionCFG.reachN_mono (g : FunctionCFG) {n m : Nat} (h : n ≤ m) :
    g.reachN n ⊆ g.reachN m := by
  induction m with
  | zero => cases Nat.le_zero.mp h; exact fun _ hx => hx
  | succ m ih =>
    rcases Nat.lt_or_ge n (m + 1) with h1 | h1
    · intro x hx
      rw [g.reachN_succ m]
      exact g.subset_stepClose _ (ih (Nat.lt_succ_iff.mp h1) hx)
    · cases Nat.le_antisymm h h1
      exact fun _ hx => hx

theorem FunctionCFG.mem_of_mem_succs {g : FunctionCFG} {y x : MetaAddress}
    (h : x ∈ g.succs y) : (y, x) ∈ g.Edges := by
  unfold FunctionCFG.succs at h
  simp only [List.mem_map, List.mem_filter] at h
  obtain ⟨⟨a, b⟩, ⟨he, hy⟩, hx⟩ := h
  simp only [beq_iff_eq] at hy
  subst hy; subst hx
  exact he

theorem FunctionCFG.reachN_subset_nodes (g : FunctionCFG) (hWF : g.WF)
    (hE : g.Entry ∈ g.Nodes) : ∀ n, g.reachN n ⊆ g.Nodes := by
  intro n
  induction n with
  | zero =>
    intro x hx
    simp only [FunctionCFG.reachN, Nat.iterate, List.mem_singleton] at hx
    subst hx; exact hE
  | succ n ih =>
    intro x hx
    rw [g.reachN_succ n] at hx
    rcases FunctionCFG.mem_stepClose.mp hx with h | ⟨y, _, hs⟩
    · exact ih h
    · exact (hWF.2 _ (FunctionCFG.mem_of_mem_succs hs)).2

theorem FunctionCFG.reaches_of_mem_reachN (g : FunctionCFG) :
    ∀ n x, x ∈ g.reachN n → g.Reaches x := by
  intro n
  induction n with
  | zero =>
    intro x hx
    simp only [FunctionCFG.reachN, Nat.iterate, List.mem_singleton] at hx
    subst hx; exact FunctionCFG.Reaches.refl
  | succ n ih =>
    intro x hx
    rw [g.reachN_succ n] at hx
    rcases FunctionCFG.mem_stepClose.mp hx with h | ⟨y, hy, hs⟩
    · exact ih x h
    · exact FunctionCFG.Reaches.tail (ih y hy) hs

theorem FunctionCFG.stepClose_congr {g : FunctionCFG} {a b : List MetaAddress}
    (h : ∀ x, x ∈ a ↔ x ∈ b) : ∀ x, x ∈ g.stepClose a ↔ x ∈ g.stepClose b := by
  intro x
  rw [FunctionCFG.mem_stepClose, FunctionCFG.mem_stepClose]
  constructor
  · rintro (hx | ⟨y, hy, hs⟩)
    · exact Or.inl ((h x).mp hx)
    · exact Or.inr ⟨y, (h y).mp hy, hs⟩
  · rintro (hx | ⟨y, hy, hs⟩)
    · exact Or.inl ((h x).mpr hx)
    · exact Or.inr ⟨y, (h y).mpr hy, hs⟩

theorem FunctionCFG.reachN_fix_forward {g : FunctionCFG} {n : Nat}
    (h : ∀ x, x ∈ g.reachN n ↔ x ∈ g.reachN (n + 1)) :
    ∀ k x, x ∈ g.reachN n ↔ x ∈ g.reachN (n + k) := by
  intro k
  induction k with
  | zero => intro x; exact Iff.rfl
  | succ k ih =>
    intro x
    have hstep : ∀ y, y ∈ g.reachN (n + 1) ↔ y ∈ g.reachN (n + k + 1) := by
      rw [g.reachN_succ n, g.reachN_succ (n + k)]
      exact FunctionCFG.stepClose_congr ih
    rw [show n + (k + 1) = n + k + 1 from rfl]
    exact (h x).trans (hstep x)

theorem FunctionCFG.reachN_growth {g : FunctionCFG} {n : Nat}
    (h : ¬∀ x, x ∈ g.reachN n ↔ x ∈ g.reachN (n + 1)) :
    (g.reachN n).length + 1 ≤ (g.reachN (n + 1)).length := by
  push_neg at h
  obtain ⟨x, hx⟩ := h
  have hsub : g.reachN n ⊆ g.reachN (n + 1) := g.reachN_mono (Nat.le_succ n)
  have hxin : x ∈ g.reachN (n + 1) ∧ x ∉ g.reachN n := by
    rcases hx with ⟨h1, h2⟩ | ⟨h1, h2⟩
    · exact absurd (hsub h1) h2
    · exact ⟨h2, h1⟩
  have hnodup : (x :: g.reachN n).Nodup := List.nodup_cons.mpr ⟨hxin.2, g.nodup_reachN n⟩
  have hsub2 : (x :: g.reachN n) ⊆ g.reachN (n + 1) := by
    intro y hy
    rcases List.mem_cons.mp hy with rfl | hy
    · exact hxin.1
    · exact hsub hy
  have := (List.subperm_of_subset hnodup hsub2).length_le
  simpa using this

theorem FunctionCFG.reachN_stable_or_big (g : FunctionCFG) :
    ∀ n, (∀ x, x ∈ g.reachN n ↔ x ∈ g.reachN (n + 1)) ∨ n + 1 ≤ (g.reachN n).length := by
  intro n
  induction n with
  | zero =>
    right
    simp [FunctionCFG.reachN, Nat.iterate]
  | succ n ih =>
    by_cases h : ∀ x, x ∈ g.reachN n ↔ x ∈ g.reachN (n + 1)
    · left
      rw [g.reachN_succ n, g.reachN_succ (n + 1)]
      exact FunctionCFG.stepClose_congr h
    · right
      have hg := FunctionCFG.reachN_growth h
      rcases ih with h1 | h1
      · exact absurd h1 h
      · omega

theorem FunctionCFG.reachN_length_le (g : FunctionCFG) (hWF : g.WF)
    (hE : g.Entry ∈ g.Nodes) (n : Nat) : (g.reachN n).length ≤ g.Nodes.length :=
  (List.subperm_of_subset (g.nodup_reachN n) (g.reachN_subset_nodes hWF hE n)).length_le

theorem FunctionCFG.visited_fixpoint (g : FunctionCFG) (hWF : g.WF)
    (hE : g.Entry ∈ g.Nodes) :
    ∀ x, x ∈ g.reachN g.Nodes.length ↔ x ∈ g.reachN (g.Nodes.length + 1) := by
  rcases g.reachN_stable_or_big g.Nodes.length with h | h
  · exact h
  · have := g.reachN_length_le hWF hE g.Nodes.length
    omega

theorem FunctionCFG.mem_visited_of_reaches (g : FunctionCFG) (hWF : g.WF)
    (hE : g.Entry ∈ g.Nodes) : ∀ x, g.Reaches x → x ∈ g.visitedList := by
  have hvis : g.visitedList = g.reachN g.Nodes.length := rfl
  intro x hx
  rw [hvis]
  induction hx with
  | refl =>
    refine g.reachN_mono (Nat.zero_le _) ?_
    simp [FunctionCFG.reachN, Nat.iterate]
  | tail ha hs ih =>
    refine (g.visited_fixpoint hWF hE _).mpr ?_
    rw [g.reachN_succ]
    exact FunctionCFG.mem_stepClose.mpr (Or.inr ⟨_, ih, hs⟩)

/-- C7: `FunctionCFG::allNodesAreReachable` returns true iff every node of
the graph is reachable from the entry node along forward edges; for a
graph with zero nodes it returns true (vacuously covered by the iff). The
hypotheses are the invariants `getGraph` maintains: node keys are unique,
edges link existing nodes, and (as `entryNode` requires) the entry address
has a node whenever the graph is non-empty. -/
theorem FunctionCFG.allNodesAreReachable_iff (g : FunctionCFG) (hWF : g.WF)
    (hE : g.Nodes ≠ [] → g.Entry ∈ g.Nodes) :
    g.allNodesAreReachable = true ↔ ∀ a ∈ g.Nodes, g.Reaches a := by
  unfold FunctionCFG.allNodesAreReachable
  by_cases h0 : g.Nodes = []
  · simp [h0]
  · have hE' := hE h0
    have hlen : ¬(g.Nodes.length == 0) = true := by
      simp only [beq_iff_eq, List.length_eq_zero]
      exact h0
    rw [if_neg hlen, beq_iff_eq]
    constructor
    · intro hlen2 a ha
      have hsub : g.visitedList ⊆ g.Nodes :=
        g.reachN_subset_nodes hWF hE' g.Nodes.length
      have hperm : g.visitedList.Perm g.Nodes :=
        (List.subperm_of_subset (g.nodup_reachN _) hsub).perm_of_length_le
          (le_of_eq hlen2.symm)
      exact g.reaches_of_mem_reachN _ a (hperm.mem_iff.mpr ha)
    · intro hreach
      have h1 : g.Nodes ⊆ g.visitedList := fun a ha =>
        g.mem_visited_of_reaches hWF hE' a (hreach a ha)
      have h2 := (List.subperm_of_subset (hWF.1) h1).length_le
      exact Nat.le_antisymm (g.reachN_length_le hWF hE' _) h2

/-- C7 witness: the iff instantiated on a concrete two-node graph. -/
theorem FunctionCFG.allNodesAreReachable_iff_witness :
    graphC7.allNodesAreReachable = true ↔ ∀ a ∈ graphC7.Nodes, graphC7.Reaches a :=
  FunctionCFG.allNodesAreReachable_iff graphC7
    (by unfold FunctionCFG.WF; decide) (by decide)

/-- C8: evaluation of the failing input. The function at Entry is Regular
and the CFG is non-empty, but no basic block starts at Entry and no edge
introduces it, so the graph built by `getGraph` has no node for Entry and
`verify` hits the `Map.at(Entry)` throw inside `entryNode` (modelled as
`none`) instead of reaching its own "CFG does not contain a block starting
at the entry point" failure path. -/
theorem FunctionMetadata.verify_entry_lookup_crash :
    (getGraphCore binC8 mdC8.ControlFlowGraph mdC8.Entry).Nodes = [some 2] ∧
    mdC8.Entry ∉ (getGraphCore binC8 mdC8.ControlFlowGraph mdC8.Entry).Nodes ∧
    mdC8.verify binC8 = none := by decide

end efa

namespace pipeline

theorem contains_iff {α : Type} [BEq α] [LawfulBEq α] (l : List α) (a : α) :
    l.contains a = true ↔ a ∈ l := List.elem_iff

theorem kindMatches_refl (reg : KindReg) (a : String) : kindMatches reg a a = true := by
  unfold kindMatches
  rw [contains_iff]
  cases reg.length with
  | zero => simp [ancestorChain]
  | succ n => simp [ancestorChain]

theorem patMatches_refl (p : List String) : patMatches p p = true := by
  induction p with
  | nil => rfl
  | cons a p ih => simp [patMatches, ih]

theorem patMatches_length : ∀ {pat path : List String},
    patMatches pat path = true → pat.length = path.length := by
  intro pat
  induction pat with
  | nil =>
    intro path h
    cases path with
    | nil => rfl
    | cons b path => simp [patMatches] at h
  | cons a pat ih =>
    intro path h
    cases path with
    | nil => simp [patMatches] at h
    | cons b path =>
      simp only [patMatches, Bool.and_eq_true] at h
      simp [ih h.2]

theorem patMatches_set (pat : List String) :
    ∀ (path : List String), patMatches pat path = true →
      ∀ (i : Nat), patMatches (pat.set i (path.getD i "*")) path = true := by
  induction pat with
  | nil =>
    intro path hm i
    cases path with
    | nil => simpa using hm
    | cons b path => simp [patMatches] at hm
  | cons a pat ih =>
    intro path hm i
    cases path with
    | nil => simp [patMatches] at hm
    | cons b path =>
      simp only [patMatches, Bool.and_eq_true] at hm
      cases i with
      | zero => simp [List.set, patMatches, hm.2]
      | succ i =>
        simp only [List.set, patMatches, List.getD_cons_succ, Bool.and_eq_true]
        exact ⟨hm.1, ih path hm.2 i⟩

theorem overwriteAt_cons (base : List String) (i : Nat) (idxs : List Nat)
    (v : String) (vals : List String) :
    overwriteAt base (i :: idxs) (v :: vals) = overwriteAt (base.set i v) idxs vals := rfl

theorem patMatches_overwriteAt (idxs : List Nat) :
    ∀ (pat path : List String), patMatches pat path = true →
      patMatches (overwriteAt pat idxs (idxs.map (fun i => path.getD i "*"))) path
        = true := by
  induction idxs with
  | nil =>
    intro pat path hm
    simpa [overwriteAt] using hm
  | cons i idxs ih =>
    intro pat path hm
    rw [List.map_cons, overwriteAt_cons]
    exact ih _ path (patMatches_set pat path hm i)

theorem matchesIn_parts {reg : KindReg} {r : Rule} {t : LTarget}
    (h : matchesIn reg r t = true) :
    t.container = r.inContainer ∧ kindMatches reg t.kind r.inKind = true ∧
      patMatches r.inPath t.path = true := by
  unfold matchesIn at h
  simp only [Bool.and_eq_true, beq_iff_eq] at h
  tauto

theorem outMatches_image (reg : KindReg) (r : Rule) (t : LTarget)
    (hm : matchesIn reg r t = true) : outMatches reg r (image r t) = true := by
  obtain ⟨h1, h2, h3⟩ := matchesIn_parts hm
  unfold outMatches image
  simp only [Bool.and_eq_true, beq_iff_eq]
  refine ⟨⟨by trivial, kindMatches_refl reg r.outKind⟩, ?_⟩
  cases hfn : r.fn with
  | identity =>
    simp only [applyFn, beq_iff_eq]
    exact (patMatches_length h3).symm
  | constPath p => simp [applyFn]
  | project idxs => simp [applyFn]

theorem covers_self (reg : KindReg) (t : LTarget) : covers reg t t = true := by
  unfold covers
  simp [kindMatches_refl, patMatches_refl]

theorem covers_invImage_image (reg : KindReg) (r : Rule) (t : LTarget)
    (hm : matchesIn reg r t = true) :
    covers reg (invImage r (image r t)) t = true := by
  obtain ⟨h1, h2, h3⟩ := matchesIn_parts hm
  unfold covers invImage image
  simp only [Bool.and_eq_true, beq_iff_eq]
  refine ⟨⟨h1.symm, h2⟩, ?_⟩
  cases hfn : r.fn with
  | identity => simp [applyFn, patMatches_refl]
  | constPath p => simp [applyFn, h3]
  | project idxs =>
    simp only [applyFn]
    exact patMatches_overwriteAt idxs r.inPath t.path h3

theorem mem_ruleOutputs (reg : KindReg) (rules : List Rule) {t : LTarget} {r : Rule}
    {S : List LTarget} (ht : t ∈ S) (hr : r ∈ rules) (hm : matchesIn reg r t = true) :
    image r t ∈ ruleOutputs reg rules S := by
  unfold ruleOutputs
  rw [List.mem_flatMap]
  exact ⟨t, ht, List.mem_map.mpr ⟨r, List.mem_filter.mpr ⟨hr, hm⟩, rfl⟩⟩

theorem ruleOutputs_sub (reg : KindReg) (rules : List Rule) {t : LTarget}
    {S : List LTarget} (ht : t ∈ S) :
    ∀ o ∈ ruleOutputs reg rules [t], o ∈ ruleOutputs reg rules S := by
  intro o ho
  unfold ruleOutputs at ho ⊢
  rw [List.mem_flatMap] at ho ⊢
  obtain ⟨u, hu, hmap⟩ := ho
  rw [List.mem_singleton] at hu
  exact ⟨t, ht, hu ▸ hmap⟩

theorem mem_post_output (reg : KindReg) (rules : List Rule) (S : List LTarget)
    {o : LTarget} (h : o ∈ ruleOutputs reg rules S) :
    o ∈ deducePostcondition reg rules S := List.mem_append.mpr (Or.inr h)

theorem mem_post_kept (reg : KindReg) (rules : List Rule) (S : List LTarget)
    {t : LTarget} (ht : t ∈ S) (hk : keptIn reg rules t = true) :
    t ∈ deducePostcondition reg rules S :=
  List.mem_append.mpr (Or.inl (List.mem_filter.mpr ⟨ht, hk⟩))

theorem mem_pre_invImage (reg : KindReg) (rules : List Rule) (O : List LTarget)
    {o : LTarget} {r : Rule} (ho : o ∈ O) (hr : r ∈ rules)
    (hM : outMatches reg r o = true) :
    invImage r o ∈ deducePrecondition reg rules O := by
  unfold deducePrecondition
  rw [List.mem_flatMap]
  refine ⟨o, ho, ?_⟩
  have hmem : r ∈ rules.filter (fun rr => outMatches reg rr o) :=
    List.mem_filter.mpr ⟨hr, hM⟩
  have hne : (rules.filter (fun rr => outMatches reg rr o)).isEmpty = false := by
    cases hfil : rules.filter (fun rr => outMatches reg rr o) with
    | nil => rw [hfil] at hmem; cases hmem
    | cons hd tl => simp [List.isEmpty]
  simp only [hne, Bool.false_eq_true, if_false]
  exact List.mem_map.mpr ⟨r, hmem, rfl⟩

theorem mem_pre_pass (reg : KindReg) (rules : List Rule) (O : List LTarget)
    {o : LTarget} (ho : o ∈ O)
    (hnone : ∀ r ∈ rules, outMatches reg r o = false) :
    o ∈ deducePrecondition reg rules O := by
  unfold deducePrecondition
  rw [List.mem_flatMap]
  refine ⟨o, ho, ?_⟩
  have hfil : rules.filter (fun rr => outMatches reg rr o) = [] := by
    rw [List.filter_eq_nil_iff]
    intro r hr
    simp [hnone r hr]
  simp [hfil]

theorem keptIn_of_not_matched (reg : KindReg) (rules : List Rule) {t : LTarget}
    (h : matchedAny reg rules t = false) : keptIn reg rules t = true := by
  have hnone : ∀ r ∈ rules, matchesIn reg r t = false := by
    intro r hr
    by_contra hc
    rw [Bool.not_eq_false] at hc
    have hA : matchedAny reg rules t = true := by
      unfold matchedAny
      rw [List.any_eq_true]
      exact ⟨r, hr, hc⟩
    rw [hA] at h
    simp at h
  unfold keptIn
  have hfil : rules.filter (fun r => matchesIn reg r t) = [] := by
    rw [List.filter_eq_nil_iff]
    intro r hr
    simp [hnone r hr]
  simp [hfil]

/-- C2 counterexample: with one identity rule from kind K1 to kind K2, the
concrete input `C:K2:x` matches no input pattern (it passes through the
Pipe unchanged) but matches the rule's output description, so the backward
pass rewrites it to `C:K1:x` and the round trip
`deducePrecondition(deducePostcondition(I))` no longer covers it: the
claim as stated fails on this input. -/
theorem Contract.roundtrip_not_superset :
    tC2 ∈ [tC2] ∧
    coveredBy regC2
      (deducePrecondition regC2 [ruleC2] (deducePostcondition regC2 [ruleC2] [tC2]))
      tC2 = false := by decide

/-- C2 (amended): for every Contract and concrete input TargetSet `I`, the
round trip `deducePrecondition(deducePostcondition(I))` covers `I`
(coverage because preconditions may be wildcarded), provided every target
of `I` either matches some rule's input pattern or matches no rule's
output description — the exception being exactly the pass-through targets
the counterexample exhibits, which the backward pass mistakes for rule
outputs. -/
theorem Contract.roundtrip_covers (reg : KindReg) (rules : List Rule)
    (I : List LTarget)
    (h : ∀ t ∈ I, matchedAny reg rules t = true ∨
      ∀ r ∈ rules, outMatches reg r t = false) :
    ∀ t ∈ I, coveredBy reg
      (deducePrecondition reg rules (deducePostcondition reg rules I)) t = true := by
  intro t ht
  unfold coveredBy
  rw [List.any_eq_true]
  by_cases hm : matchedAny reg rules t = true
  · have hex : ∃ r ∈ rules, matchesIn reg r t = true := by
      unfold matchedAny at hm
      rw [List.any_eq_true] at hm
      exact hm
    obtain ⟨r, hr, hmt⟩ := hex
    refine ⟨invImage r (image r t), ?_, covers_invImage_image reg r t hmt⟩
    exact mem_pre_invImage reg rules _
      (mem_post_output reg rules I (mem_ruleOutputs reg rules ht hr hmt)) hr
      (outMatches_image reg r t hmt)
  · have hm' : matchedAny reg rules t = false := by
      revert hm
      cases matchedAny reg rules t <;> simp
    have hB : ∀ r ∈ rules, outMatches reg r t = false := by
      rcases h t ht with hA | hB
      · exact absurd hA hm
      · exact hB
    refine ⟨t, ?_, covers_self reg t⟩
    exact mem_pre_pass reg rules _
      (mem_post_kept reg rules I ht (keptIn_of_not_matched reg rules hm')) hB

/-- C2 witness: the amended round trip instantiated on a concrete input
matching the rule. -/
theorem Contract.roundtrip_covers_witness :
    (∀ t ∈ inC2, matchedAny regC2 [ruleC2] t = true ∨
      ∀ r ∈ [ruleC2], outMatches regC2 r t = false) ∧
    ∀ t ∈ inC2, coveredBy regC2
      (deducePrecondition regC2 [ruleC2] (deducePostcondition regC2 [ruleC2] inC2))
      t = true :=
  ⟨by decide, Contract.roundtrip_covers regC2 [ruleC2] inC2 (by decide)⟩

end pipeline

namespace pipeline

theorem runPipes_snd_aux (reg : KindReg) (flags : List String) :
    ∀ (ps : List Pipe) (S : List LTarget) (tr : List String),
      (ps.foldl
        (fun acc p =>
          if enabled flags p then
            (deducePostcondition reg p.rules acc.1, acc.2 ++ [p.name])
          else acc)
        (S, tr)).2
      = tr ++ (ps.filter (fun q => enabled flags q)).map Pipe.name := by
  intro ps
  induction ps with
  | nil => intro S tr; simp
  | cons p ps ih =>
    intro S tr
    cases h : enabled flags p with
    | true =>
      rw [List.foldl_cons]
      simp only [h, if_true]
      rw [ih]
      simp [List.filter_cons, h]
    | false =>
      rw [List.foldl_cons]
      simp only [h, Bool.false_eq_true, if_false]
      rw [ih]
      simp [List.filter_cons, h]

theorem runPipes_trace (reg : KindReg) (flags : List String) (ps : List Pipe)
    (S : List LTarget) :
    (runPipes reg flags ps S).2 = (ps.filter (fun q => enabled flags q)).map Pipe.name := by
  unfold runPipes
  rw [runPipes_snd_aux]
  simp

theorem pipe_eq_of_name_eq : ∀ {ps : List Pipe}, (ps.map Pipe.name).Nodup →
    ∀ {p q : Pipe}, p ∈ ps → q ∈ ps → q.name = p.name → q = p := by
  intro ps
  induction ps with
  | nil => intro _ p q hp; cases hp
  | cons a ps ih =>
    intro hnd p q hp hq hname
    rw [List.map_cons, List.nodup_cons] at hnd
    rcases List.mem_cons.mp hp with rfl | hp' <;> rcases List.mem_cons.mp hq with rfl | hq'
    · rfl
    · exact absurd (hname ▸ List.mem_map_of_mem Pipe.name hq') hnd.1
    · exact absurd (hname.symm ▸ List.mem_map_of_mem Pipe.name hp') hnd.1
    · exact ih hnd.2 hp' hq' hname

theorem deducePostcondition_nil (reg : KindReg) (I : List LTarget) :
    deducePostcondition reg [] I = I := by
  unfold deducePostcondition ruleOutputs keptIn
  simp

theorem deducePrecondition_nil (reg : KindReg) (O : List LTarget) :
    deducePrecondition reg [] O = O := by
  unfold deducePrecondition
  simp

/-- C3: a Pipe gated by `EnabledWhen` flags has its execute invoked in a
run iff its flags are in the runtime's active flag set, and a gated-out
Pipe is planned with an empty Contract: both planning directions become
the identity, so the Pipe contributes no targets in either direction. -/
theorem Pipe.flag_gating (reg : KindReg) (flags : List String) (ps : List Pipe)
    (S : List LTarget) (p : Pipe) (hmem : p ∈ ps)
    (hnodup : (ps.map Pipe.name).Nodup) :
    (p.name ∈ (runPipes reg flags ps S).2 ↔ enabled flags p = true) ∧
    (enabled flags p = false →
      effectiveRules flags p = [] ∧
      (∀ I, deducePostcondition reg (effectiveRules flags p) I = I) ∧
      (∀ O, deducePrecondition reg (effectiveRules flags p) O = O)) := by
  constructor
  · rw [runPipes_trace]
    constructor
    · intro hin
      obtain ⟨q, hq, hqname⟩ := List.mem_map.mp hin
      obtain hq2 := List.mem_filter.mp hq
      have hqp : q = p := pipe_eq_of_name_eq hnodup hmem hq2.1 hqname
      exact hqp ▸ hq2.2
    · intro hen
      exact List.mem_map_of_mem Pipe.name (List.mem_filter.mpr ⟨hmem, hen⟩)
  · intro hdis
    have heff : effectiveRules flags p = [] := by
      unfold effectiveRules
      simp [hdis]
    exact ⟨heff, fun I => by rw [heff]; exact deducePostcondition_nil reg I,
           fun O => by rw [heff]; exact deducePrecondition_nil reg O⟩

/-- C3 witness: with active flags {DoCopy}, the Pipe gated on DoOther is
not executed and plans as the identity. -/
theorem Pipe.flag_gating_witness :
    (pipeC3off.name ∈ (runPipes regC2 flagsC3 [pipeC3on, pipeC3off] []).2 ↔
      enabled flagsC3 pipeC3off = true) ∧
    (enabled flagsC3 pipeC3off = false →
      effectiveRules flagsC3 pipeC3off = [] ∧
      (∀ I, deducePostcondition regC2 (effectiveRules flagsC3 pipeC3off) I = I) ∧
      (∀ O, deducePrecondition regC2 (effectiveRules flagsC3 pipeC3off) O = O)) :=
  Pipe.flag_gating regC2 flagsC3 [pipeC3on, pipeC3off] [] pipeC3off
    (by decide) (by decide)

/-- C6: a pipeline description containing a Pipe whose Passes list names a
pass that is not registered fails to load with UnknownPipe, and the
load-then-run entry point propagates the error without producing any
execution trace — no Pipe's execute runs. -/
theorem Loader.missing_pass_fails (R : Registry) (steps : List StepDecl)
    (s : StepDecl) (d : PipeDecl) (nm : String) (hs : s ∈ steps) (hd : d ∈ s.pipes)
    (hp : nm ∈ d.passes) (hreg : R.passNames.contains nm = false) :
    loadPipeline R steps = Except.error LoadError.UnknownPipe ∧
    loadAndRun R steps = Except.error LoadError.UnknownPipe := by
  have hall : ¬(steps.all (fun st => st.pipes.all (pipeDeclOK R)) = true) := by
    intro hA
    rw [List.all_eq_true] at hA
    have h1 := hA s hs
    rw [List.all_eq_true] at h1
    have h2 := h1 d hd
    unfold pipeDeclOK at h2
    rw [Bool.and_eq_true, List.all_eq_true] at h2
    have h3 := h2.2 nm hp
    rw [hreg] at h3
    simp at h3
  have hload : loadPipeline R steps = Except.error LoadError.UnknownPipe := by
    unfold loadPipeline
    rw [if_neg hall]
  refine ⟨hload, ?_⟩
  unfold loadAndRun
  rw [hload]

/-- C6 witness: the concrete description with `Passes:
[nonexistent-pass]` fails to load. -/
theorem Loader.missing_pass_fails_witness :
    loadPipeline regC6 declC6 = Except.error LoadError.UnknownPipe ∧
    loadAndRun regC6 declC6 = Except.error LoadError.UnknownPipe :=
  Loader.missing_pass_fails regC6 declC6
    ⟨"FirstStep", [⟨"PureLLVMPipe", ["module.ll"], ["nonexistent-pass"], []⟩]⟩
    ⟨"PureLLVMPipe", ["module.ll"], ["nonexistent-pass"], []⟩
    "nonexistent-pass" (by decide) (by decide) (by decide) (by decide)

end pipeline

namespace pipeline

theorem stepInval_fst (reg : KindReg) (g : String) (acc : List LTarget × List LTarget)
    (p : Pipe) : (stepInval reg g acc p).1 = deducePostcondition reg p.rules acc.1 := rfl

theorem invalRun_aux_fst (reg : KindReg) (g : String) :
    ∀ (ps : List Pipe) (acc : List LTarget × List LTarget),
      (ps.foldl (stepInval reg g) acc).1 = execState reg ps acc.1 := by
  intro ps
  induction ps with
  | nil => intro acc; rfl
  | cons p ps ih =>
    intro acc
    rw [List.foldl_cons, ih]
    rfl

theorem invalRun_fst (reg : KindReg) (g : String) (ps : List Pipe) (S0 : List LTarget) :
    (invalRun reg g ps S0).1 = execState reg ps S0 :=
  invalRun_aux_fst reg g ps (S0, [])

theorem invalRun_append (reg : KindReg) (g : String) (ps : List Pipe) (p : Pipe)
    (S0 : List LTarget) :
    invalRun reg g (ps ++ [p]) S0 = stepInval reg g (invalRun reg g ps S0) p := by
  unfold invalRun
  rw [List.foldl_append]
  rfl

theorem mem_stepInval_snd {reg : KindReg} {g : String}
    {acc : List LTarget × List LTarget} {p : Pipe} {t : LTarget} :
    t ∈ (stepInval reg g acc p).2 ↔
      t ∈ acc.2 ∨
      (p.readsGlobals.contains g = true ∧ t ∈ ruleOutputs reg p.rules acc.1) ∨
      t ∈ ruleOutputs reg p.rules (acc.1.filter (fun u => acc.2.contains u)) := by
  cases hg : p.readsGlobals.contains g with
  | true =>
    have hm := (contains_iff p.readsGlobals g).mp hg
    simp [stepInval, hg, List.mem_append, or_assoc]
    tauto
  | false =>
    have hm : g ∉ p.readsGlobals := fun hmem => by
      rw [(contains_iff p.readsGlobals g).mpr hmem] at hg
      cases hg
    simp [stepInval, hg, List.mem_append, or_assoc]
    tauto

theorem chain_mem_stale (reg : KindReg) (g : String) (S0 : List LTarget) :
    ∀ {ps : List Pipe} {t : LTarget}, Chain reg g S0 ps t →
      t ∈ (invalRun reg g ps S0).2 := by
  intro ps t h
  induction h with
  | seed ps p t hg ho =>
    rw [invalRun_append]
    apply mem_stepInval_snd.mpr
    refine Or.inr (Or.inl ⟨?_, ?_⟩)
    · rw [contains_iff]
      exact hg
    · rw [invalRun_fst]
      exact ho
  | image ps p t o hc hstate ho ih =>
    rw [invalRun_append]
    apply mem_stepInval_snd.mpr
    refine Or.inr (Or.inr ?_)
    refine ruleOutputs_sub reg p.rules ?_ o ho
    apply List.mem_filter.mpr
    constructor
    · rw [invalRun_fst]
      exact hstate
    · rw [contains_iff]
      exact ih
  | persist ps p t hc ih =>
    rw [invalRun_append]
    exact mem_stepInval_snd.mpr (Or.inl ih)

theorem stale_chain (reg : KindReg) (g : String) (S0 : List LTarget) :
    ∀ (ps : List Pipe) (t : LTarget), t ∈ (invalRun reg g ps S0).2 →
      Chain reg g S0 ps t := by
  intro ps
  induction ps using List.reverseRecOn with
  | nil =>
    intro t ht
    simp [invalRun] at ht
  | append_singleton ps p ih =>
    intro t ht
    rw [invalRun_append] at ht
    rcases mem_stepInval_snd.mp ht with h1 | ⟨hg, ho⟩ | hprod
    · exact Chain.persist ps p t (ih t h1)
    · refine Chain.seed ps p t ((contains_iff _ _).mp hg) ?_
      rw [invalRun_fst] at ho
      exact ho
    · unfold ruleOutputs at hprod
      rw [List.mem_flatMap] at hprod
      obtain ⟨u, hu, hmap⟩ := hprod
      rw [List.mem_filter] at hu
      obtain ⟨humem, hustale⟩ := hu
      rw [invalRun_fst] at humem
      refine Chain.image ps p u t (ih u ((contains_iff _ _).mp hustale)) humem ?_
      unfold ruleOutputs
      rw [List.mem_flatMap]
      exact ⟨u, List.mem_singleton_self u, hmap⟩

/-- C1: after the Invalidator runs for the mutation of Global `g`, no
Container contains a Target whose transitive derivation chain read `g`
before the mutation: at every boundary of the run (every pipe prefix
`ps`), every target with a tainted derivation chain — seeded by the
outputs of every Pipe reading `g` and closed forward under rule images —
is absent from the cleaned Containers. -/
theorem Invalidator.completeness (reg : KindReg) (g : String) (S0 : List LTarget)
    (ps : List Pipe) (t : LTarget) (h : Chain reg g S0 ps t) :
    t ∉ cleaned reg g ps S0 := by
  intro hmem
  unfold cleaned at hmem
  rw [List.mem_filter] at hmem
  obtain ⟨h1, h2⟩ := hmem
  have hc := (contains_iff ((invalRun reg g ps S0).2) t).mpr (chain_mem_stale reg g S0 h)
  rw [hc] at h2
  simp at h2

/-- C1 witness: the target produced by the model-reading Pipe is removed
after invalidating the model Global. -/
theorem Invalidator.completeness_witness :
    taintedP ∉ cleaned regP "model.yml" [pipeP] s0P :=
  Invalidator.completeness regP "model.yml" s0P [pipeP] taintedP
    (Chain.seed [] pipeP taintedP (by decide) (by decide))

/-- C4: invalidation removes nothing outside the transitive closure of the
stale set: every target present after the run whose derivation chain did
not read `g` is still present in the cleaned Containers. -/
theorem Invalidator.minimality (reg : KindReg) (g : String) (S0 : List LTarget)
    (ps : List Pipe) (t : LTarget) (h1 : t ∈ execState reg ps S0)
    (h2 : ¬Chain reg g S0 ps t) : t ∈ cleaned reg g ps S0 := by
  unfold cleaned
  rw [List.mem_filter]
  constructor
  · rw [invalRun_fst]
    exact h1
  · have hf : (invalRun reg g ps S0).2.contains t = false := by
      by_contra hc
      rw [Bool.not_eq_false] at hc
      exact h2 (stale_chain reg g S0 ps t ((contains_iff _ _).mp hc))
    show (!(invalRun reg g ps S0).2.contains t) = true
    rw [hf]
    rfl

/-- C4 witness: the pass-through target `keep:K2:y`, whose derivation does
not involve the model Global, survives the invalidation. -/
theorem Invalidator.minimality_witness :
    keepP ∈ cleaned regP "model.yml" [pipeP] s0P :=
  Invalidator.minimality regP "model.yml" s0P [pipeP] keepP (by decide)
    (fun hc => absurd (chain_mem_stale regP "model.yml" s0P hc) (by decide))

end pipeline

namespace persistence

theorem parseStrs_append (ss : List String) :
    ∀ (rest : List Token),
      parseStrs ss.length (ss.map Token.strTok ++ rest) = some (ss, rest) := by
  induction ss with
  | nil => intro rest; rfl
  | cons s ss ih =>
    intro rest
    simp [parseStrs, ih]

theorem parseTarget_append (t : pipeline.LTarget) (rest : List Token) :
    parseTarget (serializeTarget t ++ rest) = some (t, rest) := by
  unfold serializeTarget parseTarget
  simp [parseStrs_append t.path rest]

theorem parseTargetsN_append (S : List pipeline.LTarget) :
    ∀ (rest : List Token),
      parseTargetsN S.length (S.flatMap serializeTarget ++ rest) = some (S, rest) := by
  induction S with
  | nil => intro rest; rfl
  | cons t S ih =>
    intro rest
    simp [parseTargetsN, List.flatMap_cons, List.append_assoc, parseTarget_append, ih]

theorem deserializeTargets_serializeTargets (S : List pipeline.LTarget) :
    deserializeTargets (serializeTargets S) = some S := by
  unfold serializeTargets deserializeTargets
  have h := parseTargetsN_append S []
  rw [List.append_nil] at h
  simp [h]

theorem decodeMA_append (a : efa.MetaAddress) (rest : List Token) :
    decodeMA (encodeMA a ++ rest) = some (a, rest) := by
  cases a <;> rfl

theorem decodeFT_encodeFT (t : efa.FunctionType) : decodeFT (encodeFT t) = some t := by
  cases t <;> rfl

theorem parseBools_append (bs : List Bool) :
    ∀ (rest : List Token),
      parseBools bs.length (bs.map encodeBool ++ rest) = some (bs, rest) := by
  induction bs with
  | nil => intro rest; rfl
  | cons b bs ih =>
    intro rest
    cases b <;> simp [parseBools, encodeBool, ih]

theorem parseFunction_append (f : efa.Function) (rest : List Token) :
    parseFunction (encodeFunction f ++ rest) = some (f, rest) := by
  unfold encodeFunction parseFunction
  simp [decodeFT_encodeFT, parseBools_append]

theorem parseEntry_append (e : efa.MetaAddress × efa.Function) (rest : List Token) :
    parseEntry (encodeEntry e ++ rest) = some (e, rest) := by
  unfold encodeEntry parseEntry
  rw [List.append_assoc, decodeMA_append]
  simp [parseFunction_append]

theorem parseEntriesN_append (es : List (efa.MetaAddress × efa.Function)) :
    ∀ (rest : List Token),
      parseEntriesN es.length (es.flatMap encodeEntry ++ rest) = some (es, rest) := by
  induction es with
  | nil => intro rest; rfl
  | cons e es ih =>
    intro rest
    simp [parseEntriesN, List.flatMap_cons, List.append_assoc, parseEntry_append, ih]

/-- C5: serialization round-trip. For the Container serializer (a
Container persists its TargetSet) and for the model Global serializer,
deserialize after serialize is the identity, by the type's own
equality — which is at least as strong as equality up to target
equivalence. -/
theorem Savable.roundtrip :
    (∀ S : List pipeline.LTarget, deserializeTargets (serializeTargets S) = some S) ∧
    (∀ B : efa.Binary, deserializeBinary (serializeBinary B) = some B) := by
  constructor
  · exact deserializeTargets_serializeTargets
  · intro B
    unfold serializeBinary deserializeBinary
    have h1 := parseEntriesN_append B.Functions
      (Token.natTok B.ImportedDynamicFunctions.length ::
        B.ImportedDynamicFunctions.map Token.strTok)
    have h2 := parseStrs_append B.ImportedDynamicFunctions []
    rw [List.append_nil] at h2
    simp [List.cons_append, h1, h2]

end persistence
